import Mathlib

/-!
Verification of the obstacle spatial-index subsystem of the Proyecto_Arboles
repository: a shallow embedding of `src/model/avlTree.py`,
`src/game/obstacleManager.py` and the `can_place_obstacle` query of
`src/game/gameEngine.py`, together with proofs and refutations of the frozen
claims about the natural-language specification.

Modelling conventions:
* Python floats are modelled exactly: finite values as rationals (`PF.finite`),
  plus `PF.nan` and the two signed infinities (`PF.inf`).  Comparison and
  equality follow IEEE semantics as exposed by Python (`nan` compares false
  with everything, including itself).  Finite-float rounding is irrelevant to
  the claims, which only depend on comparisons, and comparisons of finite
  floats are exact.
* Python `int` is `Int`; `int()` applied to a float truncates toward zero.
* Fallible conversions (`float(...)`, `int(...)` raising `ValueError` /
  `TypeError` / `OverflowError`) are modelled as `Option`-returning functions.
* The file `src/model/avlNode.py` is imported by `avlTree.py` but is not part
  of the source tree; the node structure (key, payload, children, cached
  height) is reconstructed from the tree code's uses, and the initial height
  of a freshly created node is modelled from the spec: an `Index Node` has "a
  cached subtree height (leaf = 1, missing child = 0, ...)", so a new leaf
  carries height 1.  Parent back-references are represented by the zipper
  contexts used below instead of mutable pointers; the Python code keeps them
  consistent with the child pointers, so the upward `_rebalanceUp` walk is
  exactly a fold over the context of the start node.
-/

/-- Python float value: a finite value (exact rational), NaN, or ±infinity. -/
inductive PF : Type
  | finite (q : Rat)
  | nan
  | inf (pos : Bool)
  deriving DecidableEq, Repr

/-- Python `==` on floats: NaN is equal to nothing, including itself. -/
def pyEqF : PF → PF → Bool
  | PF.finite a, PF.finite b => a == b
  | PF.inf a, PF.inf b => a == b
  | _, _ => false

/-- Python `<` on floats: any comparison involving NaN is false;
`-inf < finite < +inf`. -/
def pyLtF : PF → PF → Bool
  | PF.finite a, PF.finite b => a < b
  | PF.finite _, PF.inf p => p
  | PF.inf p, PF.finite _ => !p
  | PF.inf a, PF.inf b => !a && b
  | _, _ => false

/-- Python `<=` on floats. -/
def pyLeF (a b : PF) : Bool := pyLtF a b || pyEqF a b

/-- Coordinate key as used by the AVL tree: the pair `(x, y)` with
`x : float`, `y : int` (`avlNode.key` is the Python tuple `(x, y)`). -/
abbrev K : Type := PF × Int

/-- Python tuple equality `(x, y) == (x', y')` (componentwise `==`). -/
def keyEqb (a b : K) : Bool := pyEqF a.1 b.1 && a.2 == b.2

/-- Python tuple comparison `(x, y) < (x', y')`: if the first components are
`==`-equal, compare the second; otherwise the result is `x < x'` (false
whenever `x` or `x'` is NaN). -/
def keyLtb (a b : K) : Bool := pyLtF a.1 b.1 || (pyEqF a.1 b.1 && a.2 < b.2)

/-- A Python value as it may appear in an obstacle record's `x`/`y` fields:
an int, a float, or a string. -/
inductive PyVal : Type
  | vint (n : Int)
  | vfloat (f : PF)
  | vstr (s : String)
  deriving DecidableEq, Repr

/-- Numeric value of a list of decimal digit characters. -/
def digitsVal (l : List Char) : Nat :=
  l.foldl (fun a c => a * 10 + (c.toNat - 48)) 0

/-- Parse an unsigned decimal literal (digits, optionally with one decimal
point, at least one digit present) into an exact rational, as accepted by
Python's `float()` constructor: the value of `a.b` is
`(a·10^|b| + b) / 10^|b|`.  (Exponent notation, underscores and surrounding
whitespace, which Python also accepts, are not modelled; this only restricts
the set of representable inputs, every parse that succeeds agrees with
Python.) -/
def parseDec (s : String) : Option Rat :=
  let a := s.toList.takeWhile Char.isDigit
  match s.toList.drop a.length with
  | [] => if a.length > 0 then some ((digitsVal a : Int) : Rat) else none
  | '.' :: b =>
    if (a.length > 0 || b.length > 0) && b.all Char.isDigit then
      some (mkRat ((digitsVal a : Int) * ((10 : Int) ^ b.length)
        + (digitsVal b : Int)) (10 ^ b.length))
    else none
  | _ => none

/-- Python `float(s)` on a string: optional sign, then `nan`, `inf`,
`infinity` or a decimal literal (lowercase spellings modelled). -/
def pyFloatStr (s : String) : Option PF :=
  let (neg, r) : Bool × String :=
    match s.toList with
    | '-' :: t => (true, String.mk t)
    | '+' :: t => (false, String.mk t)
    | _ => (false, s)
  if r = "nan" then some PF.nan
  else if r = "inf" || r = "infinity" then some (PF.inf (!neg))
  else (parseDec r).map (fun q => PF.finite (if neg then -q else q))

/-- Python `int(s)` on a string: optional sign then decimal digits only
(`int("3.5")` raises). -/
def pyIntStr (s : String) : Option Int :=
  let (neg, r) : Bool × String :=
    match s.toList with
    | '-' :: t => (true, String.mk t)
    | '+' :: t => (false, String.mk t)
    | _ => (false, s)
  if r.length > 0 && r.toList.all Char.isDigit then
    some (if neg then -(digitsVal r.toList : Int) else (digitsVal r.toList : Int))
  else none

/-- Truncation toward zero of an exact rational, matching Python `int()`
applied to a float (`Int.tdiv` is T-division). -/
def ratTrunc (q : Rat) : Int := Int.tdiv q.num (q.den : Int)

/-- Python `float(v)`: identity on floats, exact embedding of ints, string
parsing for strings; `none` models a raised `ValueError`/`TypeError`. -/
def pyFloatOf : PyVal → Option PF
  | PyVal.vint n => some (PF.finite (n : Rat))
  | PyVal.vfloat f => some f
  | PyVal.vstr s => pyFloatStr s

/-- Python `int(v)`: identity on ints, truncation toward zero on finite
floats (`int(nan)`/`int(inf)` raise), digit-string parsing on strings. -/
def pyIntOf : PyVal → Option Int
  | PyVal.vint n => some n
  | PyVal.vfloat (PF.finite q) => some (ratTrunc q)
  | PyVal.vfloat _ => none
  | PyVal.vstr s => pyIntStr s

/-! ## The AVL tree of `src/model/avlTree.py`

`T α` is the tree of `avlNode`s: key, obstacle payload, cached height and the
two child subtrees.  The Python parent pointers are kept consistent with the
child pointers by the code (every place that rewrites a child also rewrites
the corresponding `.parent`), so the upward walk of `_rebalanceUp` is
represented by an explicit context (`Frame` list, innermost frame first),
recovered at deletion time by `findPath` (the zipper form of `search`). -/

/-- An `avlNode` subtree: empty, or a node with key, payload, cached height
and children. -/
inductive T (α : Type) : Type
  | nil : T α
  | node (k : K) (a : α) (h : Nat) (l r : T α) : T α
  deriving DecidableEq, Repr

/-- `getHeight`: cached height of a subtree, 0 for a missing child. -/
def getHeightT : T α → Nat
  | T.nil => 0
  | T.node _ _ h _ _ => h

/-- `getBalance`: cached left height minus cached right height. -/
def getBalanceT : T α → Int
  | T.nil => 0
  | T.node _ _ _ l r => (getHeightT l : Int) - (getHeightT r : Int)

/-- `node.height = 1 + max(self.getHeight(node.left), self.getHeight(node.right))`. -/
def updHeight : T α → T α
  | T.nil => T.nil
  | T.node k a _ l r => T.node k a (1 + max (getHeightT l) (getHeightT r)) l r

/-- `rightRotation`: promote the left child; heights of the two rotated nodes
are recomputed bottom-up, exactly as in the source.  (The source dereferences
`node.left`, so it is only ever called when the left child exists; the
fallthrough branch returns the input unchanged and is unreachable from
`imbalanceCases`, whose balance guard implies a non-empty left child.) -/
def rightRotation : T α → T α
  | T.node k a _ (T.node lk la _ ll lr) r =>
    let nd := T.node k a (1 + max (getHeightT lr) (getHeightT r)) lr r
    T.node lk la (1 + max (getHeightT ll) (getHeightT nd)) ll nd
  | t => t

/-- `leftRotation`: mirror image of `rightRotation`. -/
def leftRotation : T α → T α
  | T.node k a _ l (T.node rk ra _ rl rr) =>
    let nd := T.node k a (1 + max (getHeightT l) (getHeightT rl)) l rl
    T.node rk ra (1 + max (getHeightT nd) (getHeightT rr)) nd rr
  | t => t

/-- `imbalanceCases`: rebalance the subtree root using cached-child balances
(LL / LR / RR / RL), returning the new subtree root. -/
def imbalanceCases (t : T α) : T α :=
  match t with
  | T.nil => T.nil
  | T.node k a h l r =>
    if getBalanceT (T.node k a h l r) > 1 then
      if getBalanceT l ≥ 0 then rightRotation (T.node k a h l r)
      else rightRotation (T.node k a h (leftRotation l) r)
    else if getBalanceT (T.node k a h l r) < -1 then
      if getBalanceT r ≤ 0 then leftRotation (T.node k a h l r)
      else leftRotation (T.node k a h l (rightRotation r))
    else T.node k a h l r

/-- `_insert`: BST descent (`(x,y) < node.key` goes left, otherwise right),
then height update and `imbalanceCases` on the way back up.  A new leaf is an
`avlNode(x, y, obstacle)`; modelled from the spec: `avlNode.py` is absent
from the tree, and the spec's Index Node carries "a cached subtree height
(leaf = 1, missing child = 0, ...)", so a fresh node has height 1. -/
def insertAux (t : T α) (k : K) (a : α) : T α :=
  match t with
  | T.nil => T.node k a 1 T.nil T.nil
  | T.node nk na h l r =>
    imbalanceCases (updHeight
      (if keyLtb k nk then T.node nk na h (insertAux l k a) r
       else T.node nk na h l (insertAux r k a)))

/-- `search` / `_search`: BST descent comparing `currentNode.key == (x, y)`
first, then `(x, y) < currentNode.key`; `true` iff a node was found. -/
def containsT (t : T α) (k : K) : Bool :=
  match t with
  | T.nil => false
  | T.node nk _ _ l r =>
    if keyEqb nk k then true
    else if keyLtb k nk then containsT l k
    else containsT r k

/-- `insert`: a prior `search` rejects duplicates (the source prints a message
and leaves the tree untouched); an empty tree gets a fresh root node,
otherwise `_insert` runs from the root. -/
def insertT (t : T α) (k : K) (a : α) : T α :=
  if containsT t k then t
  else
    match t with
    | T.nil => T.node k a 1 T.nil T.nil
    | T.node nk na h l r => insertAux (T.node nk na h l r) k a

/-- One step of the path from a node up to the root: the parent's key,
payload and (stale) cached height together with the sibling subtree.
`Frame.left` means the path went into the parent's left child. -/
inductive Frame (α : Type) : Type
  | left (k : K) (a : α) (h : Nat) (r : T α) : Frame α
  | right (k : K) (a : α) (h : Nat) (l : T α) : Frame α
  deriving DecidableEq, Repr

/-- Reattach a subtree under its parent frame (the parent keeps its stale
cached height until `_rebalanceUp` reaches it). -/
def plug (f : Frame α) (s : T α) : T α :=
  match f with
  | Frame.left k a h r => T.node k a h s r
  | Frame.right k a h l => T.node k a h l s

/-- Rebuild the full tree from a context (innermost frame first). -/
def plugAll (ctx : List (Frame α)) (s : T α) : T α :=
  match ctx with
  | [] => s
  | f :: ctx' => plugAll ctx' (plug f s)

/-- The zipper form of `search` as used by `delete`: locate the node whose
key is `==`-equal to the target, returning its context (innermost first),
its key, payload, cached height and children. -/
def findPath (t : T α) (k : K) (ctx : List (Frame α)) :
    Option (List (Frame α) × K × α × Nat × T α × T α) :=
  match t with
  | T.nil => none
  | T.node nk na h l r =>
    if keyEqb nk k then some (ctx, nk, na, h, l, r)
    else if keyLtb k nk then findPath l k (Frame.left nk na h r :: ctx)
    else findPath r k (Frame.right nk na h l :: ctx)

/-- `_rebalanceUp(node)`: walk from `node` to the root; at every step update
the height, rebalance with `imbalanceCases`, reattach the resulting subtree
root to the parent, and move up.  The walk includes the tree root. -/
def rebalanceUp (ctx : List (Frame α)) (s : T α) : T α :=
  match ctx with
  | [] => imbalanceCases (updHeight s)
  | f :: ctx' => rebalanceUp ctx' (plug f (imbalanceCases (updHeight s)))

/-- `_findPredecessor` + `_replaceNode(predecessor, predecessor.left)` fused:
for the (non-empty) subtree `node k a h l r`, return the rightmost node's
key, payload and stale cached height, together with the subtree with that
node spliced out (replaced by its own left child).  No height on the spliced
path is updated — `_replaceNode` touches only child/parent pointers.  When
the rightmost node is the subtree root itself (`r = nil`, the "predecessor is
the direct child" case of `_delete`), the remainder is just `l`. -/
def spliceMax : K → α → Nat → T α → T α → K × α × Nat × T α
  | k, a, h, l, T.nil => (k, a, h, l)
  | k, a, h, l, T.node rk ra rh rl rr =>
    let p := spliceMax rk ra rh rl rr
    (p.1, p.2.1, p.2.2.1, T.node k a h l p.2.2.2)

/-- `delete` / `_delete`: locate the node by `search`; if absent, print and
leave the tree unchanged (no exception is raised).  Leaf: detach and
rebalance from the former parent.  One child: replace by the child and
rebalance from the child.  Two children: graft the in-order predecessor into
the deleted node's position (with the deleted node's right subtree and the
left subtree minus the predecessor) and rebalance upward from the
predecessor's final position — the code never updates the heights on the
spliced path below that position. -/
def deleteT (t : T α) (k : K) : T α :=
  match findPath t k [] with
  | none => t
  | some (ctx, _, _, _, l, r) =>
    match l, r with
    | T.nil, T.nil =>
      match ctx with
      | [] => T.nil
      | f :: ctx' => rebalanceUp ctx' (plug f T.nil)
    | T.nil, child => rebalanceUp ctx child
    | T.node ck ca ch cl cr, T.nil => rebalanceUp ctx (T.node ck ca ch cl cr)
    | T.node lk la lh ll lr, T.node rk ra rh rl rr =>
      let p := spliceMax lk la lh ll lr
      rebalanceUp ctx (T.node p.1 p.2.1 p.2.2.1 p.2.2.2 (T.node rk ra rh rl rr))

/-- `inorderTraversal`: left subtree, key, right subtree. -/
def inorderT : T α → List K
  | T.nil => []
  | T.node k _ _ l r => inorderT l ++ k :: inorderT r

/-- Decidable check that every cached height equals
`1 + max(height(left), height(right))` (0 for a missing child). -/
def heightsOk : T α → Bool
  | T.nil => true
  | T.node _ _ h l r =>
    (h == 1 + max (getHeightT l) (getHeightT r)) && heightsOk l && heightsOk r

/-- Decidable check that every node's cached balance factor is in `[-1, 1]`. -/
def balancesOk : T α → Bool
  | T.nil => true
  | T.node _ _ _ l r =>
    ((getHeightT l : Int) - (getHeightT r : Int)).natAbs ≤ 1
      && balancesOk l && balancesOk r

/-- An operation on the Spatial Index: `insert(x, y, obstacle)` or
`delete(x, y)`. -/
inductive TOp : Type
  | ins (k : K)
  | del (k : K)
  deriving DecidableEq, Repr

/-- Run a sequence of index operations from a tree (payloads are irrelevant
to every claim and taken to be `Unit`). -/
def runT (t : T Unit) (ops : List TOp) : T Unit :=
  ops.foldl (fun s op =>
    match op with
    | TOp.ins k => insertT s k ()
    | TOp.del k => deleteT s k) t

/-! ## The coordinator of `src/game/obstacleManager.py`

An obstacle record is a Python dict; the fields consulted by the manager and
the engine are `x`, `y`, `type` and `sprite` (`Option` models `dict.get`
returning `None`; records missing `x`/`y` entirely behave like records whose
coercion fails, since the `KeyError` is caught by the same handler).  A
resolved sprite surface is represented by its pixel size, which is the only
datum any modelled caller reads from it; the asset resolver `loadSprite` is
an injected parameter `loadOk` mapping a path to a resolved size or `none`
for a failed/raising load (`fallbackSize=None`, so failure yields `None`).
Path normalisation inside `spriteUtils` is modelled as the identity. -/

/-- An obstacle record (`Dict`) as consumed by the manager. -/
structure Obs : Type where
  x : PyVal
  y : PyVal
  otype : Option String
  sprite : Option String
  deriving DecidableEq, Repr

/-- Manager state: the AVL tree (Spatial Index), the active-obstacle list
(Active Mirror, in insertion order) and the sprite cache (association list in
insertion order, surfaces as sizes). -/
structure Manager : Type where
  tree : T Obs
  active : List Obs
  cache : List (String × Nat × Nat)
  deriving DecidableEq, Repr

/-- A fresh `ObstacleManager` (empty tree, list and cache). -/
def emptyManager : Manager := ⟨T.nil, [], []⟩

/-- `spawn_obstacle`: coerce `x`/`y` (failure returns `False` with nothing
mutated); duplicate-check via `tree.search` (the searches raise nothing, so
neither `except` branch of the source runs); insert into the tree and append
to the active list; then best-effort sprite preload: only when a sprite path
is present and not already cached, a successful load is stored, and a failed
or raising load changes nothing.  Returns `True` whenever the insertion
happened. -/
def spawn (loadOk : String → Option (Nat × Nat)) (m : Manager) (o : Obs) :
    Manager × Bool :=
  match pyFloatOf o.x, pyIntOf o.y with
  | some xf, some yi =>
    if containsT m.tree (xf, yi) then (m, false)
    else
      let m1 : Manager :=
        { m with tree := insertT m.tree (xf, yi) o, active := m.active ++ [o] }
      match o.sprite with
      | some p =>
        if (m1.cache.lookup p).isNone then
          match loadOk p with
          | some sz => ({ m1 with cache := m1.cache ++ [(p, sz)] }, true)
          | none => (m1, true)
        else (m1, true)
      | none => (m1, true)
  | _, _ => (m, false)

/-- The mirror-filter predicate of `remove_by_coords`:
`float(o["x"]) == float(x) and int(o["y"]) == int(y)`.  For a record whose
coercion fails Python would raise out of `remove_by_coords`; such records
never enter the active list (spawn coerces them first), and the model keeps
them (`false` means kept by the filter's negation). -/
def matchesKey (o : Obs) (x : PF) (y : Int) : Bool :=
  match pyFloatOf o.x, pyIntOf o.y with
  | some a, some b => pyEqF a x && b == y
  | _, _ => false

/-- `remove_by_coords(x, y)` (arguments already floats/ints, so the `float()`
/ `int()` coercions inside are identities): `tree.delete` prints instead of
raising when the key is absent, so the `except` branch never runs and the
source's `removed` flag is unconditionally `True`; the active list is then
filtered, and the call returns `removed or (before != after)`. -/
def removeByCoords (m : Manager) (x : PF) (y : Int) : Manager × Bool :=
  let t1 := deleteT m.tree (x, y)
  let removed := true
  let act1 := m.active.filter (fun o => !(matchesKey o x y))
  ({ m with tree := t1, active := act1 },
    removed || !(m.active.length == act1.length))

/-- `load_from_list`: spawn each record in order; `spawn` never raises in the
model (all Python exception paths are internal), so every record is
processed. -/
def loadFromList (loadOk : String → Option (Nat × Nat)) (m : Manager)
    (l : List Obs) : Manager :=
  l.foldl (fun s o => (spawn loadOk s o).1) m

/-- `get_visible(camera_x, screen_width)`: the active obstacles (in the
mirror's order) whose coerced `x` satisfies
`camera_x <= float(o["x"]) <= camera_x + screen_width` under Python float
comparison. -/
def getVisible (m : Manager) (cameraX : Rat) (screenWidth : Int) : List Obs :=
  m.active.filter (fun o =>
    match pyFloatOf o.x with
    | some v =>
      pyLeF (PF.finite cameraX) v && pyLeF v (PF.finite (cameraX + (screenWidth : Rat)))
    | none => false)

/-- The coordinate keys present in the Active Mirror: each record's coerced
`(float(x), int(y))` pair (records that fail to coerce have no key). -/
def keysOfActive (l : List Obs) : List K :=
  l.filterMap (fun o =>
    match pyFloatOf o.x, pyIntOf o.y with
    | some a, some b => some ((a, b) : K)
    | _, _ => none)

/-- A mutating coordinator operation: `spawn_obstacle` or `remove_by_coords`. -/
inductive MOp : Type
  | sp (o : Obs)
  | rm (x : PF) (y : Int)
  deriving DecidableEq, Repr

/-- Run a sequence of coordinator operations. -/
def runM (loadOk : String → Option (Nat × Nat)) (m : Manager)
    (ops : List MOp) : Manager :=
  ops.foldl (fun s op =>
    match op with
    | MOp.sp o => (spawn loadOk s o).1
    | MOp.rm x y => (removeByCoords s x y).1) m

/-! ## `can_place_obstacle` of `src/game/gameEngine.py` -/

/-- A `pygame.Rect` (integer position and size). -/
structure PRect : Type where
  x : Int
  y : Int
  w : Int
  h : Int
  deriving DecidableEq, Repr

/-- `Rect.colliderect`: strict overlap on both axes. -/
def collideB (a b : PRect) : Bool :=
  decide (a.x < b.x + b.w) && decide (a.x + a.w > b.x)
    && decide (a.y < b.y + b.h) && decide (a.y + a.h > b.y)

/-- The engine state consulted by `can_place_obstacle`: the obstacle manager
and the configured road bounds. -/
structure Engine : Type where
  mgr : Manager
  xmin : Rat
  xmax : Rat
  ymin : Rat
  ymax : Rat

/-- `_get_obstacle_hitbox`'s default size map: `{"cone": (24, 24),
"hole": (40, 16)}` with default `(48, 48)` (also for a missing type). -/
def defSize (t : Option String) : Int × Int :=
  match t with
  | some s => if s = "cone" then (24, 24) else if s = "hole" then (40, 16) else (48, 48)
  | none => (48, 48)

/-- `_get_obstacle_hitbox`: coerce `int(o["x"])` and `float(o["y"])` (a
failure is caught and yields no hitbox); size from the cached sprite surface
if present, else from the default map; top edge is the baseline minus the
height, clamped to `road_y_min`.  For a non-finite baseline the source would
raise at the final `int()` (outside the `try`); such records cannot enter
the active list, because `spawn_obstacle` requires `int(y)` to succeed, and
the model returns no hitbox there. -/
def obstacleHitbox (e : Engine) (o : Obs) : Option PRect :=
  match pyIntOf o.x, pyFloatOf o.y with
  | some xi, some (PF.finite yb) =>
    let wh : Int × Int :=
      match o.sprite with
      | some p =>
        match e.mgr.cache.lookup p with
        | some sz => ((sz.1 : Int), (sz.2 : Int))
        | none => defSize o.otype
      | none => defSize o.otype
    some ⟨xi, ratTrunc (max (yb - (wh.2 : Rat)) e.ymin), wh.1, wh.2⟩
  | some _, some _ => none
  | _, _ => none

/-- `can_place_obstacle`'s own default size map for the candidate:
`{"cone": (24, 24), "hole": (40, 16)}` with default `(24, 24)`. -/
def candSize (t : String) : Int × Int :=
  if t = "cone" then (24, 24) else if t = "hole" then (40, 16) else (24, 24)

/-- The candidate rectangle of `can_place_obstacle`:
`Rect(int(x - margin), int(y - ch - margin), cw + int(margin*2), ch + int(margin*2))`. -/
def candRect (x : Rat) (y : Int) (margin : Rat) (otype : String) : PRect :=
  let wh := candSize otype
  ⟨ratTrunc (x - margin), ratTrunc ((y : Rat) - (wh.2 : Rat) - margin),
    wh.1 + ratTrunc (margin * 2), wh.2 + ratTrunc (margin * 2)⟩

/-- `can_place_obstacle(x, y, margin, obstacle_type)`: reject a baseline
outside the road bounds; otherwise reject iff some active obstacle's hitbox
collides with the candidate rectangle.  The source only reads state (no
assignment touches the index, the mirror or the cache), so the model is a
pure function. -/
def canPlace (e : Engine) (x : Rat) (y : Int) (margin : Rat) (otype : String) :
    Bool :=
  if e.xmin ≤ x ∧ x ≤ e.xmax ∧ e.ymin ≤ (y : Rat) ∧ (y : Rat) ≤ e.ymax then
    !(e.mgr.active.any (fun o =>
      match obstacleHitbox e o with
      | some rc => collideB (candRect x y margin otype) rc
      | none => false))
  else false

/-! ## Order-theoretic facts about the Python key comparison

`keyEqb` and `keyLtb` restricted to keys whose `x` is not NaN form a
(decidable) strict linear order; a key containing NaN compares false with
everything, including itself. -/

/-- Strict key order as a proposition. -/
def kLtP (a b : K) : Prop := keyLtb a b = true

/-- `inorderTraversal` output is strictly increasing. -/
def SortedK (l : List K) : Prop := l.Pairwise kLtP

/-- The key's `x` component is not NaN. -/
def NoNanK (k : K) : Prop := k.1 ≠ PF.nan

theorem pyEqF_true_eq {a b : PF} (h : pyEqF a b = true) : a = b := by
  cases a <;> cases b <;> simp_all [pyEqF]

theorem pyEqF_refl {a : PF} (h : a ≠ PF.nan) : pyEqF a a = true := by
  cases a <;> simp_all [pyEqF]

theorem pyEqF_nan_right {a b : PF} (h : b = PF.nan) : pyEqF a b = false := by
  subst h; cases a <;> rfl

theorem pyEqF_nan_left {a b : PF} (h : a = PF.nan) : pyEqF a b = false := by
  subst h; cases b <;> rfl

theorem pyLtF_irrefl (a : PF) : pyLtF a a = false := by
  cases a with
  | finite q => simp [pyLtF]
  | nan => rfl
  | inf p => cases p <;> rfl

theorem pyLtF_nan_left {a b : PF} (h : a = PF.nan) : pyLtF a b = false := by
  subst h; cases b <;> rfl

theorem pyLtF_nan_right {a b : PF} (h : b = PF.nan) : pyLtF a b = false := by
  subst h; cases a <;> rfl

theorem pyLtF_trans {a b c : PF} (h1 : pyLtF a b = true) (h2 : pyLtF b c = true) :
    pyLtF a c = true := by
  cases a <;> cases b <;> cases c <;>
    simp_all [pyLtF] <;>
    first
    | exact lt_trans h1 h2
    | rfl

theorem pyLtF_asymm {a b : PF} (h : pyLtF a b = true) : pyLtF b a = false := by
  cases a <;> cases b <;> simp_all [pyLtF] <;>
    first
    | exact le_of_lt h
    | rfl

theorem keyEqb_true_eq {a b : K} (h : keyEqb a b = true) : a = b := by
  obtain ⟨x1, y1⟩ := a
  obtain ⟨x2, y2⟩ := b
  simp only [keyEqb, Bool.and_eq_true, beq_iff_eq] at h
  exact Prod.ext (pyEqF_true_eq h.1) h.2

theorem keyEqb_refl {k : K} (h : NoNanK k) : keyEqb k k = true := by
  obtain ⟨x, y⟩ := k
  simp [keyEqb, pyEqF_refl h]

theorem keyEqb_nan_snd {a b : K} (h : b.1 = PF.nan) : keyEqb a b = false := by
  simp [keyEqb, pyEqF_nan_right h]

theorem keyLtb_irrefl (k : K) : keyLtb k k = false := by
  obtain ⟨x, y⟩ := k
  simp [keyLtb, pyLtF_irrefl]

theorem keyLtb_nan_fst {a b : K} (h : a.1 = PF.nan) : keyLtb a b = false := by
  simp [keyLtb, pyLtF_nan_left h, pyEqF_nan_left h]

theorem keyLtb_nan_snd {a b : K} (h : b.1 = PF.nan) : keyLtb a b = false := by
  simp [keyLtb, pyLtF_nan_right h, pyEqF_nan_right h]

theorem keyLtb_trans {a b c : K} (h1 : keyLtb a b = true) (h2 : keyLtb b c = true) :
    keyLtb a c = true := by
  obtain ⟨x1, y1⟩ := a
  obtain ⟨x2, y2⟩ := b
  obtain ⟨x3, y3⟩ := c
  simp only [keyLtb, Bool.or_eq_true, Bool.and_eq_true, decide_eq_true_eq] at h1 h2 ⊢
  rcases h1 with h1 | ⟨he1, hy1⟩
  · rcases h2 with h2 | ⟨he2, hy2⟩
    · exact Or.inl (pyLtF_trans h1 h2)
    · exact Or.inl (pyEqF_true_eq he2 ▸ h1)
  · rcases h2 with h2 | ⟨he2, hy2⟩
    · exact Or.inl (pyEqF_true_eq he1 ▸ h2)
    · have e1 := pyEqF_true_eq he1
      have e2 := pyEqF_true_eq he2
      subst e1; subst e2
      exact Or.inr ⟨he1, lt_trans hy1 hy2⟩

theorem keyLtb_asymm {a b : K} (h : keyLtb a b = true) : keyLtb b a = false := by
  by_contra hc
  have hba : keyLtb b a = true := by
    cases hx : keyLtb b a
    · exact absurd hx hc
    · rfl
  have := keyLtb_trans h hba
  simp [keyLtb_irrefl] at this

theorem keyLtb_ne {a b : K} (h : keyLtb a b = true) : a ≠ b := by
  intro he
  subst he
  simp [keyLtb_irrefl] at h

theorem pyLtF_trichotomy {a b : PF} (ha : a ≠ PF.nan) (hb : b ≠ PF.nan) :
    pyLtF a b = true ∨ a = b ∨ pyLtF b a = true := by
  cases a with
  | nan => exact absurd rfl ha
  | finite p =>
    cases b with
    | nan => exact absurd rfl hb
    | finite q =>
      rcases lt_trichotomy p q with h | h | h
      · exact Or.inl (by simp [pyLtF, h])
      · exact Or.inr (Or.inl (by rw [h]))
      · exact Or.inr (Or.inr (by simp [pyLtF, h]))
    | inf s => cases s <;> simp [pyLtF]
  | inf s =>
    cases b with
    | nan => exact absurd rfl hb
    | finite q => cases s <;> simp [pyLtF]
    | inf u => cases s <;> cases u <;> simp [pyLtF]

theorem keyLtb_trichotomy {a b : K} (ha : NoNanK a) (hb : NoNanK b) :
    keyLtb a b = true ∨ a = b ∨ keyLtb b a = true := by
  obtain ⟨x1, y1⟩ := a
  obtain ⟨x2, y2⟩ := b
  rcases pyLtF_trichotomy ha hb with h | h | h
  · exact Or.inl (by simp [keyLtb, h])
  · subst h
    rcases lt_trichotomy y1 y2 with h | h | h
    · exact Or.inl (by simp [keyLtb, pyEqF_refl ha, h])
    · exact Or.inr (Or.inl (by rw [h]))
    · exact Or.inr (Or.inr (by simp [keyLtb, pyEqF_refl ha, h]))
  · exact Or.inr (Or.inr (by simp [keyLtb, h]))

/-! ## In-order traversal through rotations, insertion and search -/

theorem inorder_rightRotation (t : T α) : inorderT (rightRotation t) = inorderT t := by
  match t with
  | T.nil => rfl
  | T.node k a h T.nil r => rfl
  | T.node k a h (T.node lk la lh ll lr) r =>
    simp [rightRotation, inorderT, List.append_assoc]

theorem inorder_leftRotation (t : T α) : inorderT (leftRotation t) = inorderT t := by
  match t with
  | T.nil => rfl
  | T.node k a h l T.nil => rfl
  | T.node k a h l (T.node rk ra rh rl rr) =>
    simp [leftRotation, inorderT, List.append_assoc]

theorem inorder_updHeight (t : T α) : inorderT (updHeight t) = inorderT t := by
  cases t <;> rfl

theorem inorder_imbalanceCases (t : T α) :
    inorderT (imbalanceCases t) = inorderT t := by
  cases t with
  | nil => rfl
  | node k a h l r =>
    simp only [imbalanceCases]
    split
    · split
      · exact inorder_rightRotation _
      · rw [inorder_rightRotation]
        simp [inorderT, inorder_leftRotation]
    · split
      · split
        · exact inorder_leftRotation _
        · rw [inorder_leftRotation]
          simp [inorderT, inorder_rightRotation]
      · rfl

theorem inorder_insertAux (t : T α) (k : K) (a : α) :
    (inorderT (insertAux t k a)).Perm (k :: inorderT t) := by
  induction t with
  | nil => simp [insertAux, inorderT]
  | node nk na h l r ihl ihr =>
    simp only [insertAux]
    split
    · rw [inorder_imbalanceCases, inorder_updHeight]
      simp only [inorderT]
      have h1 : (inorderT (insertAux l k a) ++ nk :: inorderT r).Perm
          ((k :: inorderT l) ++ nk :: inorderT r) := ihl.append_right _
      simpa using h1
    · rw [inorder_imbalanceCases, inorder_updHeight]
      simp only [inorderT]
      have h1 : (inorderT l ++ nk :: inorderT (insertAux r k a)).Perm
          (inorderT l ++ nk :: k :: inorderT r) :=
        List.Perm.append_left _ ((ihr).cons nk)
      refine h1.trans ?_
      have h2 : inorderT l ++ nk :: k :: inorderT r
          = (inorderT l ++ [nk]) ++ k :: inorderT r := by simp
      rw [h2]
      have h3 : (inorderT l ++ [nk]) ++ k :: inorderT r
          = List.append (inorderT l ++ [nk]) (k :: inorderT r) := rfl
      have h4 : ((inorderT l ++ [nk]) ++ k :: inorderT r).Perm
          (k :: ((inorderT l ++ [nk]) ++ inorderT r)) := List.perm_middle
      refine h4.trans ?_
      simp

theorem sorted_insertAux (t : T α) {k : K} (a : α)
    (hs : SortedK (inorderT t)) (hnr : ∀ x ∈ inorderT t, NoNanK x)
    (hk : NoNanK k) (hmem : k ∉ inorderT t) :
    SortedK (inorderT (insertAux t k a)) := by
  induction t with
  | nil =>
    simp [insertAux, inorderT, SortedK]
  | node nk na h l r ihl ihr =>
    have hnk : NoNanK nk := hnr nk (by simp [inorderT])
    rw [SortedK, inorderT, List.pairwise_append] at hs
    obtain ⟨hsl, hsr, hcross⟩ := hs
    have hnkB : ∀ y ∈ inorderT r, kLtP nk y := by
      intro y hy
      exact (List.pairwise_cons.mp hsr).1 y hy
    have hsB : SortedK (inorderT r) := (List.pairwise_cons.mp hsr).2
    simp only [insertAux]
    split
    · rename_i hlt
      rw [inorder_imbalanceCases, inorder_updHeight]
      simp only [inorderT]
      rw [SortedK, List.pairwise_append]
      refine ⟨ihl hsl (fun x hx => hnr x (by simp [inorderT, hx]))
        (fun hc => hmem (by simp [inorderT, hc])), hsr, ?_⟩
      intro x hx y hy
      have hx' : x = k ∨ x ∈ inorderT l :=
        by simpa using (inorder_insertAux l k a).mem_iff.mp hx
      have hy' : y = nk ∨ y ∈ inorderT r := by simpa using hy
      rcases hx' with rfl | hxl
      · rcases hy' with rfl | hyB
        · exact hlt
        · exact keyLtb_trans hlt (hnkB y hyB)
      · exact hcross x hxl y hy
    · rename_i hlt
      have hne : k ≠ nk := fun he => hmem (by simp [inorderT, he])
      have hgt : kLtP nk k := by
        rcases keyLtb_trichotomy hk hnk with h1 | h1 | h1
        · exact absurd h1 (by simpa using hlt)
        · exact absurd h1 hne
        · exact h1
      rw [inorder_imbalanceCases, inorder_updHeight]
      simp only [inorderT]
      rw [SortedK, List.pairwise_append]
      refine ⟨hsl, ?_, ?_⟩
      · rw [List.pairwise_cons]
        constructor
        · intro y hy
          have hy' : y = k ∨ y ∈ inorderT r :=
            by simpa using (inorder_insertAux r k a).mem_iff.mp hy
          rcases hy' with rfl | hyB
          · exact hgt
          · exact hnkB y hyB
        · exact ihr hsB (fun x hx => hnr x (by simp [inorderT, hx]))
            (fun hc => hmem (by simp [inorderT, hc]))
      · intro x hx y hy
        have hxnk : kLtP x nk := hcross x hx nk (by simp)
        rcases List.mem_cons.mp hy with rfl | hy'
        · exact hxnk
        · have hy'' : y = k ∨ y ∈ inorderT r :=
            by simpa using (inorder_insertAux r k a).mem_iff.mp hy'
          rcases hy'' with rfl | hyB
          · exact keyLtb_trans hxnk hgt
          · exact keyLtb_trans hxnk (hnkB y hyB)

theorem containsT_iff_mem (t : T α) (k : K)
    (hs : SortedK (inorderT t)) (hnr : ∀ x ∈ inorderT t, NoNanK x)
    (hk : NoNanK k) :
    containsT t k = true ↔ k ∈ inorderT t := by
  induction t with
  | nil => simp [containsT, inorderT]
  | node nk na h l r ihl ihr =>
    have hnk : NoNanK nk := hnr nk (by simp [inorderT])
    rw [SortedK, inorderT, List.pairwise_append] at hs
    obtain ⟨hsl, hsr, hcross⟩ := hs
    have hnkB : ∀ y ∈ inorderT r, kLtP nk y := by
      intro y hy
      exact (List.pairwise_cons.mp hsr).1 y hy
    have hsB : SortedK (inorderT r) := (List.pairwise_cons.mp hsr).2
    simp only [containsT]
    split
    · rename_i heq
      have : nk = k := keyEqb_true_eq heq
      subst this
      simp [inorderT]
    · rename_i heq
      have hne : k ≠ nk := by
        intro he
        subst he
        rw [keyEqb_refl hnk] at heq
        exact absurd rfl heq
      split
      · rename_i hlt
        rw [ihl hsl (fun x hx => hnr x (by simp [inorderT, hx]))]
        simp only [inorderT, List.mem_append, List.mem_cons]
        constructor
        · exact fun hA => Or.inl hA
        · rintro (hA | rfl | hB)
          · exact hA
          · exact absurd rfl hne
          · have := keyLtb_trans hlt (hnkB k hB)
            simp [keyLtb_irrefl] at this
      · rename_i hlt
        have hgt : kLtP nk k := by
          rcases keyLtb_trichotomy hk hnk with h1 | h1 | h1
          · exact absurd h1 (by simpa using hlt)
          · exact absurd h1 hne
          · exact h1
        rw [ihr hsB (fun x hx => hnr x (by simp [inorderT, hx]))]
        simp only [inorderT, List.mem_append, List.mem_cons]
        constructor
        · exact fun hB => Or.inr (Or.inr hB)
        · rintro (hA | rfl | hB)
          · have := keyLtb_trans (hcross k hA nk (by simp)) hgt
            simp [keyLtb_irrefl] at this
          · exact absurd rfl hne
          · exact hB

/-! ## The deletion path: zipper decomposition and in-order effect -/

theorem plugAll_append (p q : List (Frame α)) (s : T α) :
    plugAll (p ++ q) s = plugAll q (plugAll p s) := by
  induction p generalizing s with
  | nil => rfl
  | cons f p ih => simp [plugAll, ih]

theorem plugAll_decomp (ctx : List (Frame α)) :
    ∃ P Q : List K, ∀ s : T α, inorderT (plugAll ctx s) = P ++ inorderT s ++ Q := by
  induction ctx with
  | nil => exact ⟨[], [], fun s => by simp [plugAll]⟩
  | cons f ctx ih =>
    obtain ⟨P, Q, hPQ⟩ := ih
    cases f with
    | left k a h r =>
      refine ⟨P, (k :: inorderT r) ++ Q, fun s => ?_⟩
      simp [plugAll, hPQ, plug, inorderT]
    | right k a h l =>
      refine ⟨P ++ inorderT l ++ [k], Q, fun s => ?_⟩
      simp [plugAll, hPQ, plug, inorderT]

theorem plugAll_inorder_congr {x y : T α} (ctx : List (Frame α))
    (hxy : inorderT x = inorderT y) :
    inorderT (plugAll ctx x) = inorderT (plugAll ctx y) := by
  obtain ⟨P, Q, hPQ⟩ := plugAll_decomp ctx
  rw [hPQ, hPQ, hxy]

theorem inorder_rebalanceUp (ctx : List (Frame α)) (s : T α) :
    inorderT (rebalanceUp ctx s) = inorderT (plugAll ctx s) := by
  induction ctx generalizing s with
  | nil => simp [rebalanceUp, plugAll, inorder_imbalanceCases, inorder_updHeight]
  | cons f ctx ih =>
    rw [rebalanceUp, ih, plugAll]
    refine plugAll_inorder_congr ctx ?_
    cases f <;> simp [plug, inorderT, inorder_imbalanceCases, inorder_updHeight]

theorem findPath_isSome (t : T α) (k : K) (ctx : List (Frame α)) :
    (findPath t k ctx).isSome = containsT t k := by
  induction t generalizing ctx with
  | nil => rfl
  | node nk na h l r ihl ihr =>
    simp only [findPath, containsT]
    split
    · rfl
    · split
      · exact ihl _
      · exact ihr _

theorem findPath_spec (t : T α) (k : K) (ctx ctx' : List (Frame α))
    (nk : K) (na : α) (hh : Nat) (l r : T α)
    (hfp : findPath t k ctx = some (ctx', nk, na, hh, l, r)) :
    keyEqb nk k = true ∧
      ∃ pre, ctx' = pre ++ ctx ∧ plugAll pre (T.node nk na hh l r) = t := by
  induction t generalizing ctx with
  | nil => exact absurd hfp (by simp [findPath])
  | node mk ma mh ml mr ihl ihr =>
    rw [findPath] at hfp
    split at hfp
    · rename_i heq
      simp only [Option.some.injEq, Prod.mk.injEq] at hfp
      obtain ⟨hc1, hc2, hc3, hc4, hc5, hc6⟩ := hfp
      subst hc1
      subst hc2
      subst hc3
      subst hc4
      subst hc5
      subst hc6
      exact ⟨heq, [], rfl, rfl⟩
    · split at hfp
      · obtain ⟨hkeq, pre, hctx, hplug⟩ := ihl _ hfp
        refine ⟨hkeq, pre ++ [Frame.left mk ma mh mr], by simp [hctx], ?_⟩
        rw [plugAll_append, hplug]
        rfl
      · obtain ⟨hkeq, pre, hctx, hplug⟩ := ihr _ hfp
        refine ⟨hkeq, pre ++ [Frame.right mk ma mh ml], by simp [hctx], ?_⟩
        rw [plugAll_append, hplug]
        rfl

theorem spliceMax_inorder (k : K) (a : α) (h : Nat) (l r : T α) :
    inorderT l ++ k :: inorderT r
      = inorderT (spliceMax k a h l r).2.2.2 ++ [(spliceMax k a h l r).1] := by
  induction r generalizing k a h l with
  | nil => simp [spliceMax, inorderT]
  | node rk ra rh rl rr ihl ihr =>
    rw [spliceMax]
    simp only [inorderT]
    rw [ihr rk ra rh rl]
    simp

/-- Every branch of a successful deletion rebuilds the found node's context
around a subtree whose in-order listing is the left children followed by the
right children: the found key is dropped and nothing else changes. -/
theorem deleteT_found_inorder (t : T α) (k : K) (ctx : List (Frame α))
    (nk : K) (na : α) (hh : Nat) (l r : T α)
    (hfp : findPath t k [] = some (ctx, nk, na, hh, l, r)) :
    ∃ P Q : List K,
      inorderT t = P ++ (inorderT l ++ nk :: inorderT r) ++ Q ∧
        inorderT (deleteT t k) = P ++ (inorderT l ++ inorderT r) ++ Q := by
  obtain ⟨hkeq, pre, hctx, hplug⟩ := findPath_spec t k [] ctx nk na hh l r hfp
  rw [List.append_nil] at hctx
  subst hctx
  obtain ⟨P, Q, hPQ⟩ := plugAll_decomp ctx
  have ht : inorderT t = P ++ (inorderT l ++ nk :: inorderT r) ++ Q := by
    rw [← hplug, hPQ]
    rfl
  refine ⟨P, Q, ht, ?_⟩
  cases l with
  | nil =>
    cases r with
    | nil =>
      cases ctx with
      | nil =>
        simp only [deleteT, hfp]
        have h0 := hPQ T.nil
        simp only [plugAll, inorderT] at h0
        simpa [inorderT] using h0.symm
      | cons f ctx' =>
        simp only [deleteT, hfp]
        rw [inorder_rebalanceUp]
        have h2 : plugAll ctx' (plug f T.nil) = plugAll (f :: ctx') T.nil := rfl
        rw [h2, hPQ]
        simp [inorderT]
    | node ck ca ch cl cr =>
      simp only [deleteT, hfp]
      rw [inorder_rebalanceUp, hPQ]
      simp [inorderT]
  | node lk la lh ll lr =>
    cases r with
    | nil =>
      simp only [deleteT, hfp]
      rw [inorder_rebalanceUp, hPQ]
      simp [inorderT]
    | node rk ra rh rl rr =>
      simp only [deleteT, hfp]
      rw [inorder_rebalanceUp, hPQ]
      have hsp := spliceMax_inorder lk la lh ll lr
      simp only [inorderT] at hsp ⊢
      rw [show inorderT (spliceMax lk la lh ll lr).2.2.2
            ++ (spliceMax lk la lh ll lr).1
              :: (inorderT rl ++ rk :: inorderT rr)
          = (inorderT (spliceMax lk la lh ll lr).2.2.2
            ++ [(spliceMax lk la lh ll lr).1])
              ++ (inorderT rl ++ rk :: inorderT rr) from by simp]
      rw [← hsp]

theorem inorder_deleteT_sublist (t : T α) (k : K) :
    List.Sublist (inorderT (deleteT t k)) (inorderT t) := by
  cases hfp : findPath t k [] with
  | none =>
    rw [deleteT, hfp]
  | some v =>
    obtain ⟨ctx, nk, na, hh, l, r⟩ := v
    obtain ⟨P, Q, ht, hd⟩ := deleteT_found_inorder t k ctx nk na hh l r hfp
    rw [ht, hd]
    refine List.Sublist.append ?_ (List.Sublist.refl Q)
    refine List.Sublist.append (List.Sublist.refl P) ?_
    exact List.Sublist.append (List.Sublist.refl _) (List.sublist_cons_self _ _)

theorem deleteT_not_found (t : T α) (k : K) (hc : containsT t k = false) :
    deleteT t k = t := by
  have h1 := findPath_isSome t k []
  rw [hc] at h1
  rw [deleteT]
  cases hfp : findPath t k [] with
  | none => rfl
  | some v =>
    rw [hfp] at h1
    exact absurd h1 (by simp)

theorem deleteT_perm (t : T α) (k : K) (hc : containsT t k = true) :
    (inorderT t).Perm (k :: inorderT (deleteT t k)) := by
  have h1 := findPath_isSome t k []
  rw [hc] at h1
  cases hfp : findPath t k [] with
  | none =>
    rw [hfp] at h1
    exact absurd h1 (by simp)
  | some v =>
    obtain ⟨ctx, nk, na, hh, l, r⟩ := v
    obtain ⟨hkeq, -⟩ := findPath_spec t k [] ctx nk na hh l r hfp
    have hnk : nk = k := keyEqb_true_eq hkeq
    subst hnk
    obtain ⟨P, Q, ht, hd⟩ := deleteT_found_inorder t nk ctx nk na hh l r hfp
    rw [ht, hd]
    have h2 : P ++ (inorderT l ++ nk :: inorderT r) ++ Q
        = (P ++ inorderT l) ++ nk :: (inorderT r ++ Q) := by simp
    have h3 : P ++ (inorderT l ++ inorderT r) ++ Q
        = (P ++ inorderT l) ++ (inorderT r ++ Q) := by simp
    rw [h2, h3]
    exact List.perm_middle

/-! ## Invariant preservation for whole-tree operations -/

instance (k : K) : Decidable (NoNanK k) :=
  decidable_of_iff (k.1 ≠ PF.nan) Iff.rfl

instance (a b : K) : Decidable (kLtP a b) :=
  decidable_of_iff (keyLtb a b = true) Iff.rfl

instance (l : List K) : Decidable (SortedK l) :=
  decidable_of_iff (l.Pairwise kLtP) Iff.rfl

/-- The data invariant the claims quantify over: the in-order key sequence is
strictly increasing and no key contains NaN. -/
def TreeInv (t : T α) : Prop :=
  SortedK (inorderT t) ∧ ∀ x ∈ inorderT t, NoNanK x

instance (t : T α) : Decidable (TreeInv t) :=
  decidable_of_iff (SortedK (inorderT t) ∧ ∀ x ∈ inorderT t, NoNanK x) Iff.rfl

theorem insertT_of_contains (t : T α) (k : K) (a : α)
    (hc : containsT t k = true) : insertT t k a = t := by
  rw [insertT.eq_def, hc]
  rfl

theorem inorder_insertT (t : T α) (k : K) (a : α)
    (hc : containsT t k = false) :
    (inorderT (insertT t k a)).Perm (k :: inorderT t) := by
  rw [insertT.eq_def, hc]
  cases t with
  | nil => simp [inorderT]
  | node nk na h l r => exact inorder_insertAux _ k a

theorem insertT_inv (t : T α) (k : K) (a : α) (hk : NoNanK k)
    (hinv : TreeInv t) : TreeInv (insertT t k a) := by
  obtain ⟨hs, hnr⟩ := hinv
  cases hc : containsT t k with
  | true => rw [insertT_of_contains t k a hc]; exact ⟨hs, hnr⟩
  | false =>
    have hmem : k ∉ inorderT t := by
      intro hm
      rw [(containsT_iff_mem t k hs hnr hk).mpr hm] at hc
      exact absurd hc (by simp)
    constructor
    · rw [insertT.eq_def, hc]
      cases t with
      | nil => simp [inorderT, SortedK]
      | node nk na h l r => exact sorted_insertAux _ a hs hnr hk hmem
    · intro x hx
      have := (inorder_insertT t k a hc).mem_iff.mp hx
      rcases List.mem_cons.mp this with rfl | hold
      · exact hk
      · exact hnr x hold

theorem deleteT_inv (t : T α) (k : K) (hinv : TreeInv t) :
    TreeInv (deleteT t k) := by
  obtain ⟨hs, hnr⟩ := hinv
  have hsub := inorder_deleteT_sublist t k
  exact ⟨hs.sublist hsub, fun x hx => hnr x (hsub.mem hx)⟩

/-- A well-behaved index operation: inserted keys carry no NaN (a deletion
key is unrestricted — a NaN delete argument is simply never found). -/
def insOpOk : TOp → Prop
  | TOp.ins k => NoNanK k
  | TOp.del _ => True

instance (op : TOp) : Decidable (insOpOk op) := by
  cases op with
  | ins k => exact decidable_of_iff (NoNanK k) Iff.rfl
  | del k => exact decidable_of_iff True Iff.rfl

theorem runT_cons (t : T Unit) (op : TOp) (ops : List TOp) :
    runT t (op :: ops) = runT (runT t [op]) ops := by
  cases op <;> rfl

theorem runT_inv (t : T Unit) (ops : List TOp) (hinv : TreeInv t)
    (hops : ∀ op ∈ ops, insOpOk op) : TreeInv (runT t ops) := by
  induction ops generalizing t with
  | nil => exact hinv
  | cons op ops ih =>
    rw [runT_cons]
    refine ih _ ?_ (fun o ho => hops o (List.mem_cons_of_mem _ ho))
    cases op with
    | ins k =>
      have h0 : insOpOk (TOp.ins k) := hops (TOp.ins k) (by simp)
      exact insertT_inv t k () h0 hinv
    | del k => exact deleteT_inv t k hinv

/-! ## Claims C1 and C2 (Spatial Index invariants) -/

/-- Integer-valued coordinate key `(float(x), y)`. -/
def kInt (x y : Int) : K := (PF.finite (x : Rat), y)

/-- The insert sequence of the C1 failing input: it builds the balanced tree
`4 [2 [-, 3], 6 [5, 7]]` (all keys `(x, 0)`). -/
def opsC1 : List TOp :=
  [TOp.ins (kInt 4 0), TOp.ins (kInt 2 0), TOp.ins (kInt 6 0),
    TOp.ins (kInt 3 0), TOp.ins (kInt 5 0), TOp.ins (kInt 7 0)]

/-- C1: the claim states that after every completed insert or delete every
node's cached height equals `1 + max(child heights)` and every balance factor
stays in `[-1, 1]`.  The code violates the cached-height half: after the six
inserts of `opsC1` both checks hold, but deleting the root `(4, 0)` — a
two-children deletion whose in-order predecessor `(3, 0)` is not the direct
left child — grafts the predecessor into the root position and rebalances
only upward from there, leaving the predecessor's former parent `(2, 0)` with
cached height 2 although both of its children are gone (the recorded formula
gives 1).  The theorem exhibits the complete resulting tree. -/
theorem claim_C1 :
    heightsOk (runT T.nil opsC1) = true ∧
    balancesOk (runT T.nil opsC1) = true ∧
    runT T.nil (opsC1 ++ [TOp.del (kInt 4 0)])
      = T.node (kInt 3 0) () 3
          (T.node (kInt 2 0) () 2 T.nil T.nil)
          (T.node (kInt 6 0) () 2
            (T.node (kInt 5 0) () 1 T.nil T.nil)
            (T.node (kInt 7 0) () 1 T.nil T.nil)) ∧
    heightsOk (runT T.nil (opsC1 ++ [TOp.del (kInt 4 0)])) = false := by
  refine ⟨by decide, by decide, by decide, by decide⟩

/-- C2, counterexample: the claim quantifies over every sequence of insert
and delete operations, but inserting the key `(nan, 0)` twice succeeds twice
(NaN is `==`-unequal to itself, so the duplicate search misses), and the
resulting in-order traversal `[(nan, 0), (nan, 0)]` repeats a key, which is
not strictly increasing under the code's comparison (nor any irreflexive
order). -/
theorem claim_C2_counterexample :
    inorderT (runT T.nil [TOp.ins (PF.nan, 0), TOp.ins (PF.nan, 0)])
      = [(PF.nan, 0), (PF.nan, 0)] ∧
    ¬ SortedK (inorderT (runT T.nil [TOp.ins (PF.nan, 0), TOp.ins (PF.nan, 0)])) := by
  constructor
  · decide
  · decide

/-- C2, amended: for every sequence of insert and delete operations in which
no *inserted* key has NaN in its `x` component (deletion arguments are
unrestricted), the in-order traversal of the resulting tree is strictly
increasing under the total order that compares `x` first and `y` on tie. -/
theorem claim_C2 (ops : List TOp) (hops : ∀ op ∈ ops, insOpOk op) :
    SortedK (inorderT (runT T.nil ops)) :=
  (runT_inv T.nil ops ⟨by simp [inorderT, SortedK], by simp [inorderT]⟩ hops).1

/-- Witness for C2 at a concrete operation sequence (the spec's rotation
scenario plus a deletion). -/
theorem claim_C2_witness :
    (∀ op ∈ [TOp.ins (kInt 30 1), TOp.ins (kInt 20 2), TOp.ins (kInt 10 3),
        TOp.del (kInt 20 2)], insOpOk op) ∧
    SortedK (inorderT (runT T.nil [TOp.ins (kInt 30 1), TOp.ins (kInt 20 2),
        TOp.ins (kInt 10 3), TOp.del (kInt 20 2)])) :=
  ⟨by decide, claim_C2 _ (by decide)⟩

/-! ## Coordinator lemmas: the mirror/index correspondence -/

/-- The coordinate key a record coerces to, if both coercions succeed. -/
def keyOf (o : Obs) : Option K :=
  match pyFloatOf o.x, pyIntOf o.y with
  | some a, some b => some ((a, b) : K)
  | _, _ => none

theorem keysOfActive_eq (l : List Obs) : keysOfActive l = l.filterMap keyOf := rfl

theorem matchesKey_eq (o : Obs) (x : PF) (y : Int) :
    matchesKey o x y
      = (match keyOf o with
        | some kk => keyEqb kk (x, y)
        | none => false) := by
  rw [matchesKey, keyOf]
  cases pyFloatOf o.x <;> cases pyIntOf o.y <;> rfl

theorem containsT_nan (t : T α) (k : K) (hk : k.1 = PF.nan) :
    containsT t k = false := by
  induction t with
  | nil => rfl
  | node nk na h l r ihl ihr =>
    rw [containsT, keyEqb_nan_snd hk, keyLtb_nan_fst hk]
    simp [ihr]

theorem spawn_invalid (lo : String → Option (Nat × Nat)) (m : Manager) (o : Obs)
    (h : pyFloatOf o.x = none ∨ pyIntOf o.y = none) :
    spawn lo m o = (m, false) := by
  cases hx : pyFloatOf o.x <;> cases hy : pyIntOf o.y <;>
    simp_all [spawn]

theorem spawn_dup (lo : String → Option (Nat × Nat)) (m : Manager) (o : Obs)
    (xf : PF) (yi : Int) (hx : pyFloatOf o.x = some xf)
    (hy : pyIntOf o.y = some yi) (hc : containsT m.tree (xf, yi) = true) :
    spawn lo m o = (m, false) := by
  simp [spawn, hx, hy, hc]

theorem spawn_fresh (lo : String → Option (Nat × Nat)) (m : Manager) (o : Obs)
    (xf : PF) (yi : Int) (hx : pyFloatOf o.x = some xf)
    (hy : pyIntOf o.y = some yi) (hc : containsT m.tree (xf, yi) = false) :
    (spawn lo m o).1.tree = insertT m.tree (xf, yi) o ∧
      (spawn lo m o).1.active = m.active ++ [o] ∧
      (spawn lo m o).2 = true := by
  cases hsp : o.sprite with
  | none => simp [spawn, hx, hy, hc, hsp]
  | some p =>
    cases hlk : List.lookup p m.cache with
    | some sz => simp [spawn, hx, hy, hc, hsp, hlk]
    | none =>
      cases hlo : lo p with
      | some sz => simp [spawn, hx, hy, hc, hsp, hlk, hlo]
      | none => simp [spawn, hx, hy, hc, hsp, hlk, hlo]

/-- Coordinator invariant: the index satisfies the tree invariant and its
in-order key sequence is a permutation of the mirror's coerced keys. -/
def MInv (m : Manager) : Prop :=
  TreeInv m.tree ∧ (inorderT m.tree).Perm (keysOfActive m.active)

theorem keysOfActive_filter (l : List Obs) (x : PF) (y : Int) :
    keysOfActive (l.filter (fun o => !(matchesKey o x y)))
      = (keysOfActive l).filter (fun kk => !(keyEqb kk (x, y))) := by
  induction l with
  | nil => rfl
  | cons o l ih =>
    rw [keysOfActive_eq] at ih ⊢
    cases hko : keyOf o with
    | none =>
      have hm : matchesKey o x y = false := by
        rw [matchesKey_eq, hko]
      simp [List.filter_cons, List.filterMap_cons, hm, hko, ih, keysOfActive_eq]
    | some kk =>
      have hm : matchesKey o x y = keyEqb kk (x, y) := by
        rw [matchesKey_eq, hko]
      cases he : keyEqb kk (x, y) with
      | true =>
        simp [List.filter_cons, List.filterMap_cons, hm, he, hko, ih, keysOfActive_eq]
      | false =>
        simp [List.filter_cons, List.filterMap_cons, hm, he, hko, ih, keysOfActive_eq]

theorem spawn_MInv (lo : String → Option (Nat × Nat)) (m : Manager) (o : Obs)
    (hnn : pyFloatOf o.x ≠ some PF.nan) (hinv : MInv m) :
    MInv (spawn lo m o).1 := by
  obtain ⟨hti, hperm⟩ := hinv
  cases hx : pyFloatOf o.x with
  | none => rw [spawn_invalid lo m o (Or.inl hx)]; exact ⟨hti, hperm⟩
  | some xf =>
    cases hy : pyIntOf o.y with
    | none => rw [spawn_invalid lo m o (Or.inr hy)]; exact ⟨hti, hperm⟩
    | some yi =>
      have hk : NoNanK (xf, yi) := by
        intro hcon
        exact hnn (by rw [hx, show xf = PF.nan from hcon])
      cases hc : containsT m.tree (xf, yi) with
      | true =>
        rw [spawn_dup lo m o xf yi hx hy hc]
        exact ⟨hti, hperm⟩
      | false =>
        obtain ⟨h1, h2, h3⟩ := spawn_fresh lo m o xf yi hx hy hc
        refine ⟨h1 ▸ insertT_inv m.tree (xf, yi) o hk hti, ?_⟩
        rw [h1, h2, keysOfActive_eq, List.filterMap_append]
        have hko : keyOf o = some (xf, yi) := by rw [keyOf, hx, hy]
        have h4 : List.filterMap keyOf [o] = [((xf, yi) : K)] := by
          simp [List.filterMap_cons, hko]
        rw [h4]
        refine (inorder_insertT m.tree (xf, yi) o hc).trans ?_
        refine ((hperm.cons ((xf, yi) : K)).trans ?_)
        rw [keysOfActive_eq]
        exact (List.perm_append_singleton _ _).symm

theorem nodup_of_sorted {l : List K} (hs : SortedK l) : l.Nodup :=
  hs.imp (fun hab => keyLtb_ne hab)

theorem removeByCoords_MInv (m : Manager) (x : PF) (y : Int) (hinv : MInv m) :
    MInv (removeByCoords m x y).1 := by
  obtain ⟨⟨hs, hnr⟩, hperm⟩ := hinv
  have htree' : TreeInv (deleteT m.tree (x, y)) := deleteT_inv m.tree (x, y) ⟨hs, hnr⟩
  by_cases hnan : x = PF.nan
  · have hcf : containsT m.tree (x, y) = false := containsT_nan m.tree (x, y) hnan
    have hdel : deleteT m.tree (x, y) = m.tree := deleteT_not_found m.tree (x, y) hcf
    have hact : m.active.filter (fun o => !(matchesKey o x y)) = m.active := by
      rw [List.filter_eq_self]
      intro o ho
      rw [matchesKey_eq]
      cases hko : keyOf o with
      | none => simp
      | some kk => simp [keyEqb_nan_snd (show ((x, y) : K).1 = PF.nan from hnan)]
    rw [removeByCoords]
    exact ⟨by simpa [hdel] using htree', by simp only [hact, hdel]; exact hperm⟩
  · have hk : NoNanK ((x, y) : K) := hnan
    cases hc : containsT m.tree (x, y) with
    | false =>
      have hdel : deleteT m.tree (x, y) = m.tree := deleteT_not_found m.tree (x, y) hc
      have hmem : ((x, y) : K) ∉ inorderT m.tree := by
        intro hm
        rw [(containsT_iff_mem m.tree (x, y) hs hnr hk).mpr hm] at hc
        exact absurd hc (by simp)
      have hact : m.active.filter (fun o => !(matchesKey o x y)) = m.active := by
        rw [List.filter_eq_self]
        intro o ho
        rw [matchesKey_eq]
        cases hko : keyOf o with
        | none => simp
        | some kk =>
          simp only [Bool.not_eq_eq_eq_not, Bool.not_true]
          cases he : keyEqb kk (x, y) with
          | false => simp
          | true =>
            have hkkeq : kk = (x, y) := keyEqb_true_eq he
            have hmm : kk ∈ keysOfActive m.active := by
              rw [keysOfActive_eq]
              exact List.mem_filterMap.mpr ⟨o, ho, hko⟩
            rw [hkkeq] at hmm
            exact absurd (hperm.mem_iff.mpr hmm) hmem
      rw [removeByCoords]
      exact ⟨by simpa [hdel] using htree', by simp only [hact, hdel]; exact hperm⟩
    | true =>
      have hdp := deleteT_perm m.tree (x, y) hc
      rw [removeByCoords]
      refine ⟨htree', ?_⟩
      simp only
      rw [keysOfActive_filter]
      have hkm : (keysOfActive m.active).Perm
          (((x, y) : K) :: inorderT (deleteT m.tree (x, y))) := hperm.symm.trans hdp
      have hknd : (((x, y) : K) :: inorderT (deleteT m.tree (x, y))).Nodup :=
        hdp.nodup (nodup_of_sorted hs)
      have hnotmem : ((x, y) : K) ∉ inorderT (deleteT m.tree (x, y)) :=
        (List.nodup_cons.mp hknd).1
      have hftr := hkm.filter (fun kk => !(keyEqb kk (x, y)))
      have hhead : ((((x, y) : K) :: inorderT (deleteT m.tree (x, y))).filter
            (fun kk => !(keyEqb kk (x, y))))
          = (inorderT (deleteT m.tree (x, y))).filter (fun kk => !(keyEqb kk (x, y))) := by
        rw [List.filter_cons]
        simp [keyEqb_refl hk]
      have hrest : (inorderT (deleteT m.tree (x, y))).filter
            (fun kk => !(keyEqb kk (x, y)))
          = inorderT (deleteT m.tree (x, y)) := by
        rw [List.filter_eq_self]
        intro kk hkk
        cases he : keyEqb kk (x, y) with
        | false => simp
        | true =>
          have hkkeq : kk = (x, y) := keyEqb_true_eq he
          rw [hkkeq] at hkk
          exact absurd hkk hnotmem
      rw [hhead, hrest] at hftr
      exact hftr.symm

/-! ## Claims C3, C4 and C5 (coordinator consistency and error handling) -/

/-- A coordinator operation whose spawn coordinate does not coerce to NaN
(removal arguments are unrestricted, and failing coercions are allowed). -/
def mOpOk : MOp → Prop
  | MOp.sp o => pyFloatOf o.x ≠ some PF.nan
  | MOp.rm _ _ => True

instance (op : MOp) : Decidable (mOpOk op) := by
  cases op with
  | sp o => exact decidable_of_iff (pyFloatOf o.x ≠ some PF.nan) Iff.rfl
  | rm x y => exact decidable_of_iff True Iff.rfl

theorem runM_cons (lo : String → Option (Nat × Nat)) (m : Manager) (op : MOp)
    (ops : List MOp) : runM lo m (op :: ops) = runM lo (runM lo m [op]) ops := by
  cases op <;> rfl

theorem emptyManager_MInv : MInv emptyManager := by
  refine ⟨⟨?_, ?_⟩, ?_⟩ <;> simp [emptyManager, inorderT, SortedK, keysOfActive]

theorem runM_MInv (lo : String → Option (Nat × Nat)) (m : Manager)
    (ops : List MOp) (hinv : MInv m) (hops : ∀ op ∈ ops, mOpOk op) :
    MInv (runM lo m ops) := by
  induction ops generalizing m with
  | nil => exact hinv
  | cons op ops ih =>
    rw [runM_cons]
    refine ih _ ?_ (fun o ho => hops o (List.mem_cons_of_mem _ ho))
    cases op with
    | sp o =>
      have h0 : mOpOk (MOp.sp o) := hops (MOp.sp o) (by simp)
      exact spawn_MInv lo m o h0 hinv
    | rm x y => exact removeByCoords_MInv m x y hinv

/-- Load failure model used by the concrete scenarios: no asset resolves. -/
def loadNone : String → Option (Nat × Nat) := fun _ => none

/-- Obstacle record at `x = 1.0`, `y = 0`. -/
def obsF1 : Obs := ⟨PyVal.vfloat (PF.finite 1), PyVal.vint 0, none, none⟩

/-- Obstacle record with `x = float("nan")`, `y = 0`. -/
def obsNan0 : Obs := ⟨PyVal.vfloat PF.nan, PyVal.vint 0, none, none⟩

/-- Obstacle record with `x = float("nan")`, `y = 1`. -/
def obsNan1 : Obs := ⟨PyVal.vfloat PF.nan, PyVal.vint 1, none, none⟩

/-- Spawning `(1.0, 0)` and then two NaN obstacles rotates a NaN key above
the finite key: the RR rebalance after the third spawn makes `(nan, 0)` the
root with `(1.0, 0)` in its left subtree, where every later search misses it
(comparisons against NaN send the descent right). -/
def mPoisoned : Manager :=
  runM loadNone emptyManager [MOp.sp obsF1, MOp.sp obsNan0, MOp.sp obsNan1]

/-- C3, counterexample: after `remove_by_coords(1.0, 0)` on `mPoisoned`, the
mirror filter drops the `(1.0, 0)` record but `tree.delete` cannot find the
key (the search at the NaN root goes right), so the key sets of the Index and
the Active Mirror differ. -/
theorem claim_C3_counterexample :
    (PF.finite 1, 0) ∈ inorderT ((removeByCoords mPoisoned (PF.finite 1) 0).1).tree
      ∧ (PF.finite 1, 0) ∉
          keysOfActive ((removeByCoords mPoisoned (PF.finite 1) 0).1).active := by
  constructor
  · decide
  · decide

/-- C3, amended: after any sequence of completed `spawn_obstacle` /
`remove_by_coords` calls from a fresh manager in which no spawned record's
`x` coerces to NaN, the set of coordinate keys in the Active Mirror equals
the set of keys in the Index. -/
theorem claim_C3 (lo : String → Option (Nat × Nat)) (ops : List MOp)
    (hops : ∀ op ∈ ops, mOpOk op) (k : K) :
    k ∈ inorderT (runM lo emptyManager ops).tree
      ↔ k ∈ keysOfActive (runM lo emptyManager ops).active :=
  (runM_MInv lo emptyManager ops emptyManager_MInv hops).2.mem_iff

/-- Obstacle record at `x = 10`, `y = 3` with a sprite reference. -/
def obsA : Obs := ⟨PyVal.vint 10, PyVal.vint 3, some "cone", some "assets/cone.png"⟩

/-- Witness for C3: a spawn followed by a removal of an absent key. -/
theorem claim_C3_witness :
    (∀ op ∈ [MOp.sp obsA, MOp.rm (PF.finite 99) 7], mOpOk op) ∧
    ((PF.finite 10, 3) ∈
        inorderT (runM loadNone emptyManager [MOp.sp obsA, MOp.rm (PF.finite 99) 7]).tree
      ↔ (PF.finite 10, 3) ∈
          keysOfActive (runM loadNone emptyManager
            [MOp.sp obsA, MOp.rm (PF.finite 99) 7]).active) :=
  ⟨by decide, claim_C3 loadNone _ (by decide) (PF.finite 10, 3)⟩

/-- Manager holding exactly the obstacle `obsA` (key `(10.0, 3)`). -/
def mW4 : Manager := runM loadNone emptyManager [MOp.sp obsA]

/-- C4: removing an absent coordinate removes nothing and leaves both
structures unchanged, but the call returns `True`, not `False` as the claim
and the function's own docstring ("True if an obstacle was removed, False
otherwise") state: `avlTree.delete` prints instead of raising on a missing
key, so the source's `removed` flag is set unconditionally.  Evaluated on the
empty manager and on a one-obstacle manager. -/
theorem claim_C4 :
    removeByCoords emptyManager (PF.finite 5) 0 = (emptyManager, true) ∧
    removeByCoords mW4 (PF.finite 99) 7 = (mW4, true) := by
  constructor
  · decide
  · decide

/-- C5, counterexample: in `mPoisoned` the key `(1.0, 0)` is present in the
Index, yet spawning another obstacle with the same coordinates returns `true`
and inserts a duplicate, because the duplicate search is routed right at the
NaN root and misses the existing node. -/
theorem claim_C5_counterexample :
    (PF.finite 1, 0) ∈ inorderT mPoisoned.tree ∧
    (spawn loadNone mPoisoned obsF1).2 = true := by
  constructor
  · decide
  · decide

/-- C5, amended: provided the Index satisfies the tree invariant (strictly
increasing in-order keys, no NaN keys — guaranteed for every index built
from non-NaN spawns), a spawn at an already-present coordinate key returns
`false` and leaves the manager completely unchanged. -/
theorem claim_C5 (lo : String → Option (Nat × Nat)) (m : Manager) (o : Obs)
    (xf : PF) (yi : Int) (hinv : TreeInv m.tree)
    (hx : pyFloatOf o.x = some xf) (hy : pyIntOf o.y = some yi)
    (hmem : (xf, yi) ∈ inorderT m.tree) :
    spawn lo m o = (m, false) := by
  obtain ⟨hs, hnr⟩ := hinv
  have hk : NoNanK ((xf, yi) : K) := hnr _ hmem
  have hc : containsT m.tree (xf, yi) = true :=
    (containsT_iff_mem m.tree (xf, yi) hs hnr hk).mpr hmem
  exact spawn_dup lo m o xf yi hx hy hc

/-- Witness for C5: respawning `obsA` on the manager that already holds it. -/
theorem claim_C5_witness :
    TreeInv mW4.tree ∧ pyFloatOf obsA.x = some (PF.finite 10) ∧
    pyIntOf obsA.y = some 3 ∧ (PF.finite 10, 3) ∈ inorderT mW4.tree ∧
    spawn loadNone mW4 obsA = (mW4, false) :=
  ⟨by decide, by decide, by decide, by decide,
    claim_C5 loadNone mW4 obsA (PF.finite 10) 3 (by decide) (by decide)
      (by decide) (by decide)⟩

/-! ## Claims C6, C7, C8 and C10 (visibility, validation, asset failure,
coercion) -/

theorem pyLeF_finite_iff (a b : Rat) :
    pyLeF (PF.finite a) (PF.finite b) = true ↔ a ≤ b := by
  simp only [pyLeF, pyLtF, pyEqF, Bool.or_eq_true, decide_eq_true_eq, beq_iff_eq]
  exact (le_iff_lt_or_eq).symm

/-- C6: `get_visible(s, w)` returns exactly the active obstacles whose
coerced `x` is a finite value inside the closed interval `[s, s + w]`
(obstacles with NaN or infinite `x` are outside every such interval and are
excluded by the same comparison); the result is a sublist of the Active
Mirror, hence in the mirror's iteration order; and managers whose mirrors
are permutations of one another produce permuted (set-equal) results, so
the returned set does not depend on insertion order. -/
theorem claim_C6 (m : Manager) (s : Rat) (w : Int) :
    (∀ o, o ∈ getVisible m s w ↔ o ∈ m.active ∧
      ∃ q, pyFloatOf o.x = some (PF.finite q) ∧ s ≤ q ∧ q ≤ s + (w : Rat)) ∧
    List.Sublist (getVisible m s w) m.active ∧
    (∀ m' : Manager, m.active.Perm m'.active →
      (getVisible m s w).Perm (getVisible m' s w)) := by
  refine ⟨?_, List.filter_sublist _, fun m' hp => hp.filter _⟩
  intro o
  rw [getVisible, List.mem_filter]
  constructor
  · rintro ⟨ho, hpred⟩
    refine ⟨ho, ?_⟩
    cases hx : pyFloatOf o.x with
    | none => rw [hx] at hpred; exact absurd hpred (by simp)
    | some v =>
      rw [hx] at hpred
      cases v with
      | finite q =>
        simp only [Bool.and_eq_true] at hpred
        exact ⟨q, rfl, (pyLeF_finite_iff s q).mp hpred.1,
          (pyLeF_finite_iff q (s + (w : Rat))).mp hpred.2⟩
      | nan => exact absurd hpred (by simp [pyLeF, pyLtF, pyEqF])
      | inf b =>
        cases b <;> exact absurd hpred (by simp [pyLeF, pyLtF, pyEqF])
  · rintro ⟨ho, q, hq, h1, h2⟩
    refine ⟨ho, ?_⟩
    rw [hq]
    simp only [Bool.and_eq_true]
    exact ⟨(pyLeF_finite_iff s q).mpr h1, (pyLeF_finite_iff q (s + (w : Rat))).mpr h2⟩

/-- Obstacle record at `x = 50` (Scenario E). -/
def obs50 : Obs := ⟨PyVal.vint 50, PyVal.vint 0, none, none⟩

/-- Obstacle record at `x = 300` (Scenario E). -/
def obs300 : Obs := ⟨PyVal.vint 300, PyVal.vint 0, none, none⟩

/-- Manager state of Scenario E: active obstacles at `x = 50` and `x = 300`. -/
def mScenE : Manager := ⟨T.nil, [obs50, obs300], []⟩

/-- Witness for C6 on Scenario E: `getVisible(0, 200)` contains the `x = 50`
obstacle, and permuting the mirror permutes the result. -/
theorem claim_C6_witness :
    (obs50 ∈ mScenE.active ∧
      ∃ q, pyFloatOf obs50.x = some (PF.finite q) ∧ (0 : Rat) ≤ q ∧
        q ≤ (0 : Rat) + ((200 : Int) : Rat)) ∧
    obs50 ∈ getVisible mScenE 0 200 ∧
    (getVisible mScenE 0 200).Perm (getVisible mScenE 0 200) := by
  have hin : obs50 ∈ mScenE.active ∧
      ∃ q, pyFloatOf obs50.x = some (PF.finite q) ∧ (0 : Rat) ≤ q ∧
        q ≤ (0 : Rat) + ((200 : Int) : Rat) := by
    refine ⟨by decide, 50, by decide, by norm_num, by norm_num⟩
  exact ⟨hin, ((claim_C6 mScenE 0 200).1 obs50).mpr hin,
    (claim_C6 mScenE 0 200).2.2 mScenE (List.Perm.refl _)⟩

/-- Record whose `x` does not coerce (`float("abc")` raises). -/
def obsBad : Obs := ⟨PyVal.vstr "abc", PyVal.vint 0, none, none⟩

/-- C7, counterexample: the claim says spawn validates that `x` is *finite*;
but `float()` accepts NaN, so spawning a record with `x = float("nan")` on a
fresh manager returns `true` and mutates the structures instead of being
rejected. -/
theorem claim_C7_counterexample :
    pyFloatOf obsNan0.x = some PF.nan ∧
    (spawn loadNone emptyManager obsNan0).2 = true ∧
    (spawn loadNone emptyManager obsNan0).1 ≠ emptyManager := by
  refine ⟨by decide, by decide, by decide⟩

/-- C7, amended: spawn validates only that `x` converts via `float()` and `y`
via `int()` (non-finite values pass this check): when either conversion
fails, spawn returns `false` without mutating anything, and a batch load
continues with the remaining records. -/
theorem claim_C7 (lo : String → Option (Nat × Nat)) (m : Manager) (o : Obs)
    (rest : List Obs) (h : pyFloatOf o.x = none ∨ pyIntOf o.y = none) :
    spawn lo m o = (m, false) ∧
    loadFromList lo m (o :: rest) = loadFromList lo m rest := by
  refine ⟨spawn_invalid lo m o h, ?_⟩
  rw [loadFromList, loadFromList, List.foldl_cons, spawn_invalid lo m o h]

/-- Witness for C7: a record with `x = "abc"` is rejected and the rest of the
batch is still loaded. -/
theorem claim_C7_witness :
    (pyFloatOf obsBad.x = none ∨ pyIntOf obsBad.y = none) ∧
    spawn loadNone emptyManager obsBad = (emptyManager, false) ∧
    loadFromList loadNone emptyManager (obsBad :: [obsA])
      = loadFromList loadNone emptyManager [obsA] :=
  ⟨Or.inl (by decide),
    (claim_C7 loadNone emptyManager obsBad [obsA] (Or.inl (by decide))).1,
    (claim_C7 loadNone emptyManager obsBad [obsA] (Or.inl (by decide))).2⟩

/-- C8: when the record's sprite path is present, not yet cached, and asset
resolution fails (`loadSprite` returns `None` or raises), the completed
insertion into the Index and the Active Mirror is kept, the cache is left
unchanged, and spawn still returns `true`. -/
theorem claim_C8 (lo : String → Option (Nat × Nat)) (m : Manager) (o : Obs)
    (xf : PF) (yi : Int) (p : String)
    (hx : pyFloatOf o.x = some xf) (hy : pyIntOf o.y = some yi)
    (hc : containsT m.tree (xf, yi) = false)
    (hsp : o.sprite = some p) (hnc : List.lookup p m.cache = none)
    (hload : lo p = none) :
    spawn lo m o
      = ({ m with
            tree := insertT m.tree (xf, yi) o
            active := m.active ++ [o] }, true) := by
  simp [spawn, hx, hy, hc, hsp, hnc, hload]

/-- Witness for C8: spawning `obsA` (sprite `assets/cone.png`) with a
resolver that fails still inserts and returns `true` with an empty cache. -/
theorem claim_C8_witness :
    pyFloatOf obsA.x = some (PF.finite 10) ∧ pyIntOf obsA.y = some 3 ∧
    containsT emptyManager.tree (PF.finite 10, 3) = false ∧
    obsA.sprite = some "assets/cone.png" ∧
    List.lookup "assets/cone.png" emptyManager.cache = none ∧
    loadNone "assets/cone.png" = none ∧
    spawn loadNone emptyManager obsA
      = ({ emptyManager with
            tree := insertT emptyManager.tree (PF.finite 10, 3) obsA
            active := emptyManager.active ++ [obsA] }, true) :=
  ⟨by decide, by decide, by decide, by decide, by decide, by decide,
    claim_C8 loadNone emptyManager obsA (PF.finite 10) 3 "assets/cone.png"
      (by decide) (by decide) (by decide) (by decide) (by decide) (by decide)⟩

/-- C10 (implicit): spawn accepts exactly the records whose `x` converts via
`float()` and whose `y` converts via `int()` — including numeric strings
(`"3.5"` becomes the float `7/2`) and fractional `y` values truncated toward
zero (`int(7/2) = 3`, `int(-7/2) = -3`); the coerced pair is the key used for
the duplicate check and stored in the Index, the Active Mirror appends the
original un-coerced record, and removal filters the mirror by comparing each
record's coerced key with the requested pair. -/
theorem claim_C10 (lo : String → Option (Nat × Nat)) (m : Manager) (o : Obs)
    (xf : PF) (yi : Int)
    (hx : pyFloatOf o.x = some xf) (hy : pyIntOf o.y = some yi) :
    (containsT m.tree (xf, yi) = true → spawn lo m o = (m, false)) ∧
    (containsT m.tree (xf, yi) = false →
      (spawn lo m o).1.tree = insertT m.tree (xf, yi) o ∧
      (spawn lo m o).1.active = m.active ++ [o] ∧
      (spawn lo m o).2 = true) ∧
    (removeByCoords m xf yi).1.active
      = m.active.filter (fun ob => !(matchesKey ob xf yi)) ∧
    pyFloatOf (PyVal.vstr "3.5") = some (PF.finite (mkRat 7 2)) ∧
    pyIntOf (PyVal.vfloat (PF.finite (mkRat 7 2))) = some 3 ∧
    pyIntOf (PyVal.vfloat (PF.finite (mkRat (-7) 2))) = some (-3) ∧
    pyIntOf (PyVal.vstr "7") = some 7 ∧ pyIntOf (PyVal.vstr "3.5") = none := by
  refine ⟨fun hc => spawn_dup lo m o xf yi hx hy hc,
    fun hc => spawn_fresh lo m o xf yi hx hy hc,
    rfl, by decide, by decide, by decide, by decide, by decide⟩

/-- Witness for C10: a record with string `x = "3.5"` and float `y = 7/2` is
accepted on the empty manager with coerced key `(3.5, 3)`. -/
theorem claim_C10_witness :
    pyFloatOf (PyVal.vstr "3.5") = some (PF.finite (mkRat 7 2)) ∧
    pyIntOf (PyVal.vfloat (PF.finite (mkRat 7 2))) = some 3 ∧
    (containsT emptyManager.tree (PF.finite (mkRat 7 2), 3) = false →
      (spawn loadNone emptyManager
          ⟨PyVal.vstr "3.5", PyVal.vfloat (PF.finite (mkRat 7 2)), none, none⟩).1.tree
        = insertT emptyManager.tree (PF.finite (mkRat 7 2), 3)
            ⟨PyVal.vstr "3.5", PyVal.vfloat (PF.finite (mkRat 7 2)), none, none⟩ ∧
      (spawn loadNone emptyManager
          ⟨PyVal.vstr "3.5", PyVal.vfloat (PF.finite (mkRat 7 2)), none, none⟩).1.active
        = emptyManager.active
            ++ [⟨PyVal.vstr "3.5", PyVal.vfloat (PF.finite (mkRat 7 2)), none, none⟩] ∧
      (spawn loadNone emptyManager
          ⟨PyVal.vstr "3.5", PyVal.vfloat (PF.finite (mkRat 7 2)), none, none⟩).2 = true) :=
  ⟨by decide, by decide,
    (claim_C10 loadNone emptyManager
      ⟨PyVal.vstr "3.5", PyVal.vfloat (PF.finite (mkRat 7 2)), none, none⟩
      (PF.finite (mkRat 7 2)) 3 (by decide) (by decide)).2.1⟩

/-! ## Claim C9 (`can_place_obstacle`) -/

/-- C9: `can_place_obstacle(x, y, margin, obstacle_type)` returns `false`
whenever the baseline coordinate lies outside the configured road bounds, and
`false` whenever the candidate rectangle (built from the obstacle-type
dependent default size) collides with the hitbox of any currently active
obstacle.  The source only reads the engine state (no assignment touches the
Index, the Active Mirror or the cache), so the embedding is a pure function
of the engine and the query. -/
theorem claim_C9 (e : Engine) (x : Rat) (y : Int) (margin : Rat)
    (otype : String) :
    ((¬ (e.xmin ≤ x ∧ x ≤ e.xmax ∧ e.ymin ≤ (y : Rat) ∧ (y : Rat) ≤ e.ymax)) →
      canPlace e x y margin otype = false) ∧
    (∀ o rc, o ∈ e.mgr.active → obstacleHitbox e o = some rc →
      collideB (candRect x y margin otype) rc = true →
      canPlace e x y margin otype = false) := by
  constructor
  · intro hout
    rw [canPlace, if_neg hout]
  · intro o rc ho hr hcol
    by_cases hb : e.xmin ≤ x ∧ x ≤ e.xmax ∧ e.ymin ≤ (y : Rat) ∧ (y : Rat) ≤ e.ymax
    · rw [canPlace, if_pos hb]
      have hany : e.mgr.active.any (fun ob =>
          match obstacleHitbox e ob with
          | some rr => collideB (candRect x y margin otype) rr
          | none => false) = true := by
        rw [List.any_eq_true]
        refine ⟨o, ho, ?_⟩
        rw [hr]
        exact hcol
      rw [hany]
      rfl
    · rw [canPlace, if_neg hb]

/-- A cone obstacle at `(100, 40)` with no sprite entry in the cache. -/
def oCone : Obs := ⟨PyVal.vint 100, PyVal.vint 40, some "cone", none⟩

/-- A small engine: road `x ∈ [0, 1000]`, `y ∈ [0, 500]`, one active cone. -/
def engEx : Engine := ⟨⟨T.nil, [oCone], []⟩, 0, 1000, 0, 500⟩

/-- Witness for C9: placing another cone right on top of the active cone at
`(100, 40)` with margin 4 is rejected. -/
theorem claim_C9_witness :
    oCone ∈ engEx.mgr.active ∧
    obstacleHitbox engEx oCone = some ⟨100, 16, 24, 24⟩ ∧
    collideB (candRect 100 40 4 "cone") ⟨100, 16, 24, 24⟩ = true ∧
    canPlace engEx 100 40 4 "cone" = false := by
  have h1 : oCone ∈ engEx.mgr.active := by decide
  have h2 : obstacleHitbox engEx oCone = some ⟨100, 16, 24, 24⟩ := by
    norm_num [obstacleHitbox, engEx, oCone, defSize, pyIntOf, pyFloatOf, ratTrunc]
  have h3 : collideB (candRect 100 40 4 "cone") ⟨100, 16, 24, 24⟩ = true := by
    norm_num [collideB, candRect, candSize, ratTrunc]
  exact ⟨h1, h2, h3,
    (claim_C9 engEx 100 40 4 "cone").2 oCone ⟨100, 16, 24, 24⟩ h1 h2 h3⟩
